import Mathlib

/-!
Verification development for the openswarm recursive mention-routing engine.

The definitions below are a shallow embedding, translated from the
TypeScript sources of the repository:
* mention extraction: `Orchestrator.extractMentions` and the mention regex
  built in the constructor (src/unnamed/part_010, recursive orchestrator);
* the streaming chat client: `OpenClawConnection` (src/unnamed/part_011);
* the orchestrator turn loop: `Orchestrator.chat` and
  `Orchestrator.processMentionRecursive` (src/unnamed/part_010);
* the connection registry: `Orchestrator.ensureConnection`
  (src/unnamed/part_010).

Strings are modelled as Lean `String` / `List Char`; indices count
characters (the source counts UTF-16 code units; the two agree on all
texts without surrogate pairs, and on every input considered here).
Network effects are modelled by explicit outcome parameters and, for the
orchestrator, by a stateful environment oracle.
-/

namespace OpenSwarm

/-! ### Mention extraction

Embedding of the mention regex `new RegExp("@(" + names.join("|") + ")\\b", "g")`
(src/unnamed/part_010 line 256) and of `Orchestrator.extractMentions`
(src/unnamed/part_010 lines 599-623).
-/

/-- JS regex word character `\w`, that is `[A-Za-z0-9_]`. -/
def isWordChar (c : Char) : Bool :=
  ('a' ≤ c && c ≤ 'z') || ('A' ≤ c && c ≤ 'Z') || ('0' ≤ c && c ≤ '9') || c == '_'

/-- Wordness of the character at position `p`; out of range counts as non-word. -/
def isWordAt (text : List Char) (p : Nat) : Bool :=
  match text.get? p with
  | some c => isWordChar c
  | none => false

/-- JS regex word boundary `\b` at position `p` of `text`. -/
def wordBoundary (text : List Char) (p : Nat) : Bool :=
  (if p == 0 then false else isWordAt text (p - 1)) != isWordAt text p

/-- The alternatives of the alternation `(n1|n2|...)`: joining the empty name
list with `|` yields a single empty alternative, otherwise the names in
order. -/
def alternatives (names : List String) : List String :=
  if names.isEmpty then [""] else names

/-- Try to match `@(n1|...|nk)\b` at index `i` of `text`: a literal `@` at `i`,
then the first alternative (in list order, as regex alternation backtracks)
that is a prefix of the remaining text and is followed by a word boundary.
Returns the captured name. -/
def tryMatchAt (names : List String) (text : List Char) (i : Nat) : Option String :=
  if text.get? i == some '@' then
    (alternatives names).find? fun nm =>
      decide ((text.drop (i + 1)).take nm.length = nm.data)
        && wordBoundary text (i + 1 + nm.length)
  else
    none

/-- Scan step of `text.matchAll(regex)`: search forward from index `i`; a
match of name `nm` at `i` has total length `1 + nm.length` and scanning
resumes at its end. `fuel` only bounds the recursion; since every step
advances by at least one position, `fuel = text.length` is enough. -/
def scanAux (names : List String) (text : List Char) : Nat → Nat → List (Nat × String)
  | 0, _ => []
  | fuel + 1, i =>
    if i < text.length then
      match tryMatchAt names text i with
      | some nm => (i, nm) :: scanAux names text fuel (i + 1 + nm.length)
      | none => scanAux names text fuel (i + 1)
    else []

/-- All matches of the mention regex, in left-to-right order, as
(index, captured name) pairs: the embedding of `[...text.matchAll(this.mentionRegex)]`. -/
def scanMatches (names : List String) (text : List Char) : List (Nat × String) :=
  scanAux names text text.length 0

/-- Whitespace removed by `String.prototype.trim` (ASCII part plus NBSP and
BOM; all inputs considered here are ASCII). -/
def isJsSpace (c : Char) : Bool :=
  c == ' ' || c == '\t' || c == '\n' || c == '\r' ||
  c == '\x0B' || c == '\x0C' || c == '\u00A0' || c == '\uFEFF'

/-- The embedding of `String.prototype.trim`. -/
def trimChars (cs : List Char) : List Char :=
  ((cs.dropWhile isJsSpace).reverse.dropWhile isJsSpace).reverse

/-- `text.slice(start, stop)` for `0 ≤ start ≤ stop`. -/
def sliceChars (text : List Char) (start stop : Nat) : List Char :=
  (text.drop start).take (stop - start)

/-- A `MentionMatch` record (src/unnamed types): target agent and the text
directed at it. -/
structure MentionMatch where
  agent : String
  message : String
deriving DecidableEq, Repr

/-- The end of the message slice for the current match: the index of the next
match when there is one (`matches[i + 1].index`), the text length otherwise. -/
def nextStop (text : List Char) : List (Nat × String) → Nat
  | [] => text.length
  | (j, _) :: _ => j

/-- The message fragment of a match of `agent` at `idx`, given the later
matches `rest`: `text.slice(start, end).trim()` with
`start = match.index + match[0].length = idx + 1 + agent.length`. -/
def fragmentAt (text : List Char) (idx : Nat) (agent : String)
    (rest : List (Nat × String)) : String :=
  String.mk (trimChars (sliceChars text (idx + 1 + agent.length) (nextStop text rest)))

/-- The loop body of `extractMentions` (src/unnamed/part_010 lines 608-620):
for the i-th match, skip it when the captured agent is the excluded agent or
was already seen; otherwise record it as seen, slice the text from the end of
this match to the start of the next match (or the end of the text), trim it,
and emit a mention only when the trimmed message is non-empty. -/
def extractLoop (text : List Char) (excludeAgent : String) :
    List (Nat × String) → List String → List MentionMatch
  | [], _ => []
  | (idx, agent) :: rest, seen =>
    if agent == excludeAgent || seen.contains agent then
      extractLoop text excludeAgent rest seen
    else
      let message := fragmentAt text idx agent rest
      if message.isEmpty then extractLoop text excludeAgent rest (agent :: seen)
      else ⟨agent, message⟩ :: extractLoop text excludeAgent rest (agent :: seen)

/-- `Orchestrator.extractMentions(text, excludeAgent)` over the agent name
vocabulary `names` (src/unnamed/part_010 lines 599-623). -/
def extractMentions (names : List String) (text : String) (excludeAgent : String) :
    List MentionMatch :=
  extractLoop text.data excludeAgent (scanMatches names text.data) []

/-- Every raw regex match paired with its trimmed following fragment, before
the exclusion, dedup and non-empty filtering of `extractMentions`: the i-th
candidate message is the text from the end of the i-th match to the start of
the next match (or the end of the text), trimmed. -/
def candLoop (text : List Char) : List (Nat × String) → List MentionMatch
  | [] => []
  | (idx, agent) :: rest =>
    ⟨agent, fragmentAt text idx agent rest⟩ :: candLoop text rest

/-- All mention candidates of a text, in match order. -/
def candidateMentions (names : List String) (text : String) : List MentionMatch :=
  candLoop text.data (scanMatches names text.data)

/-! ### Streaming client: `OpenClawConnection` (src/unnamed/part_011)

The network is modelled by an explicit outcome parameter; everything the
client then does with the response is embedded as pure functions.
-/

/-- JS truthiness of an optional string: `undefined` and the empty string are
falsy. -/
def truthy : Option String → Bool
  | some s => !s.isEmpty
  | none => false

/-- One element of a `delta.tool_calls` array: the fields
`id?`, `index?`, `function.name?`, `function.arguments?` the client reads. -/
structure ToolCallDelta where
  id : Option String
  index : Option Nat
  fnName : Option String
  args : Option String
deriving DecidableEq, Repr

/-- One parsed SSE data frame, reduced to the fields of `chunk.choices[0]`
that the client reads: `delta.tool_calls`, `delta.content`, `finish_reason`.
Lines without a `data: ` head, the `[DONE]` marker and unparseable chunks are
skipped by the reader loop (part_011 lines 118-124, 174-176) and are
therefore not represented. -/
structure Frame where
  toolCalls : Option (List ToolCallDelta)
  content : Option String
  finishReason : Option String
deriving DecidableEq, Repr

/-- An entry of the insertion-ordered `activeToolCalls` map: call id, function
name, accumulated arguments. -/
structure ActiveTool where
  id : String
  name : String
  args : String
deriving DecidableEq, Repr

/-- Events emitted by the client during `sendMessage`. -/
inductive Ev
  | delta (content : String)
  | toolStart (name id : String)
  | toolEnd (name id : String)
  | errorEv (msg : String)
deriving DecidableEq, Repr

/-- State of the stream-parsing loop: accumulated text, the active tool-call
map in insertion order, and the events emitted so far. -/
structure StreamState where
  fullText : String
  active : List ActiveTool
  events : List Ev
deriving DecidableEq, Repr

/-- Append `extra` to the arguments of the active entry with the given id
(`existing.args += tc.function.arguments`, part_011 lines 139-142). -/
def appendArgsById (acts : List ActiveTool) (id extra : String) : List ActiveTool :=
  acts.map fun t => if t.id == id then { t with args := t.args ++ extra } else t

/-- Append `extra` to the first active entry in insertion order
(the `for ... break` of part_011 lines 145-148). -/
def appendArgsToFirst (acts : List ActiveTool) (extra : String) : List ActiveTool :=
  match acts with
  | [] => []
  | t :: rest => { t with args := t.args ++ extra } :: rest

/-- Processing of one element of `delta.tool_calls`
(part_011 lines 130-150): a frame with a truthy id and function name that is
not yet active starts a tool (emits `tool_start`); arguments are accumulated
onto the call with that id, or, for index-based frames without a truthy id,
onto the first open call. -/
def processToolCall (st : StreamState) (tc : ToolCallDelta) : StreamState :=
  let st :=
    if truthy tc.id && truthy tc.fnName && !(st.active.any fun t => some t.id == tc.id) then
      { st with
          active := st.active ++ [⟨tc.id.getD "", tc.fnName.getD "", ""⟩],
          events := st.events ++ [.toolStart (tc.fnName.getD "") (tc.id.getD "")] }
    else st
  if truthy tc.id && truthy tc.args then
    { st with active := appendArgsById st.active (tc.id.getD "") (tc.args.getD "") }
  else if tc.index.isSome && truthy tc.args then
    { st with active := appendArgsToFirst st.active (tc.args.getD "") }
  else st

/-- Processing of one parsed frame (part_011 lines 124-173): tool-call deltas
first; then a truthy content delta closes every active tool (`tool_end` in
insertion order) and accumulates the text; finally a truthy `finish_reason`
closes any remaining active tools. -/
def processFrame (st : StreamState) (fr : Frame) : StreamState :=
  let st :=
    match fr.toolCalls with
    | some tcs => tcs.foldl processToolCall st
    | none => st
  let st :=
    if truthy fr.content then
      let st :=
        if !st.active.isEmpty then
          { st with
              events := st.events ++ st.active.map (fun t => Ev.toolEnd t.name t.id),
              active := [] }
        else st
      { st with
          fullText := st.fullText ++ fr.content.getD "",
          events := st.events ++ [.delta (fr.content.getD "")] }
    else st
  if truthy fr.finishReason && !st.active.isEmpty then
    { st with
        events := st.events ++ st.active.map (fun t => Ev.toolEnd t.name t.id),
        active := [] }
  else st

/-- Run the stream loop over the parsed frames, from the empty state. -/
def runFrames (frames : List Frame) : StreamState :=
  frames.foldl processFrame ⟨"", [], []⟩

/-- Outcome of the streaming `fetch` of `sendMessage`:
`netError` - the fetch itself threw (connect failure or timeout) before any
bytes were read; `httpError` - a response with `!res.ok` (or no body);
`stream` - a streamed body whose parsed frames are given, with
`streamErr = some msg` when the stream broke mid-read after those frames. -/
inductive SendOutcome
  | netError (msg : String)
  | httpError (status : Nat) (body : String)
  | stream (frames : List Frame) (streamErr : Option String)
deriving DecidableEq, Repr

/-- Result of `sendMessage`: returned value (`string | null`), the
conversation history afterwards, and the emitted events. -/
structure SendResult where
  ret : Option String
  history : List (String × String)
  events : List Ev
deriving DecidableEq, Repr

/-- `OpenClawConnection.sendMessage` (part_011 lines 72-197) as a function of
the conversation history before the call, the outgoing message, and the
network outcome. The user message is pushed first; a fetch or HTTP failure
emits an error and returns null; a mid-stream failure returns null only when
no text was accumulated, otherwise execution falls through; at the end any
still-active tools are closed, the assistant text is appended to the history
only when non-empty, and `fullText || null` is returned. -/
def sendMessage (history : List (String × String)) (message : String)
    (outcome : SendOutcome) : SendResult :=
  let hist1 := history ++ [("user", message)]
  match outcome with
  | .netError m => ⟨none, hist1, [.errorEv m]⟩
  | .httpError s body => ⟨none, hist1, [.errorEv ("HTTP " ++ toString s ++ ": " ++ body)]⟩
  | .stream frames streamErr =>
    let st := runFrames frames
    match streamErr with
    | some m =>
      if st.fullText.isEmpty then
        ⟨none, hist1, st.events ++ [.errorEv m]⟩
      else
        ⟨some st.fullText,
         hist1 ++ [("assistant", st.fullText)],
         st.events ++ [.errorEv m] ++ st.active.map fun t => Ev.toolEnd t.name t.id⟩
    | none =>
      if st.fullText.isEmpty then
        ⟨none, hist1, st.events ++ st.active.map fun t => Ev.toolEnd t.name t.id⟩
      else
        ⟨some st.fullText,
         hist1 ++ [("assistant", st.fullText)],
         st.events ++ st.active.map fun t => Ev.toolEnd t.name t.id⟩

/-- The text the stream loop accumulates for a given outcome (nothing when
the request itself failed, the fold of the content deltas otherwise). -/
def accText : SendOutcome → String
  | .netError _ => ""
  | .httpError _ _ => ""
  | .stream frames _ => (runFrames frames).fullText

/-- The constructor of `OpenClawConnection` (part_011 lines 22-32): the
history starts with a system entry when `config.systemPrompt` is set (and
truthy). -/
def initHistory (sysPrompt : Option String) : List (String × String) :=
  if truthy sysPrompt then [("system", sysPrompt.getD "")] else []

/-- Fold a sequence of `sendMessage` calls (message, network outcome) over a
starting history, keeping the resulting history. -/
def runSends (h : List (String × String)) (calls : List (String × SendOutcome)) :
    List (String × String) :=
  calls.foldl (fun h c => (sendMessage h c.1 c.2).history) h

/-- No two consecutive history entries carry the same role. -/
def altOk : List (String × String) → Bool
  | [] => true
  | [_] => true
  | a :: b :: rest => (a.1 != b.1) && altOk (b :: rest)

/-! ### Reachability check and connection registry

`OpenClawConnection.connect` (src/unnamed/part_011 lines 39-64) and
`Orchestrator.ensureConnection` (src/unnamed/part_010 lines 563-597).
-/

/-- Outcome of the reachability `fetch` inside `connect`: the fetch threw
(network error or timeout), or an HTTP response with the given status
arrived. -/
inductive FetchResult
  | netError
  | response (status : Nat) (body : String)
deriving DecidableEq, Repr

/-- The `Response.ok` flag: status in the 2xx range. -/
def statusOk (s : Nat) : Bool := 200 ≤ s && s ≤ 299

/-- Whether `connect` succeeds (part_011 lines 39-64): it throws on a fetch
error and on `!res.ok` (so any non-2xx status is a failure), and sets
`_connected` only otherwise. -/
def connectSucceeds : FetchResult → Bool
  | .netError => false
  | .response s _ => statusOk s

/-- Registry state of the orchestrator: the `connections` map keyed by agent
name with the `_connected` flag of the stored client, and the keys of the
`connectingPromises` map (attempts in flight). -/
structure Registry where
  connections : List (String × Bool)
  connectingPending : List String
deriving DecidableEq, Repr

/-- Lookup of the `_connected` flag of the client stored under `name`
(`existing?.isConnected ?? false`). -/
def isConnectedIn (reg : Registry) (name : String) : Bool :=
  match reg.connections.find? (fun e => e.1 == name) with
  | some e => e.2
  | none => false

/-- What a single call to `ensureConnection` does synchronously, before the
event loop can run anything else. The body of `ensureConnection` runs
atomically from entry up to the first `await` inside `connect` (the
reachability fetch), and the pending promise is registered in
`connectingPromises` before control is yielded. -/
inductive EnsureStartResult
  | existingConnected
  | joinPending
  | noConfig
  | started
deriving DecidableEq, Repr

/-- The synchronous prefix of `ensureConnection(name)` (part_010 lines
564-596): return the existing connected client if present; else join an
attempt already in flight for that name; else fail when the agent has no
config; else create a client, dispatch the reachability check and register
the pending attempt. -/
def ensureStart (agents : List String) (reg : Registry) (name : String) :
    EnsureStartResult × Registry :=
  if isConnectedIn reg name then (.existingConnected, reg)
  else if reg.connectingPending.contains name then (.joinPending, reg)
  else if !agents.contains name then (.noConfig, reg)
  else (.started, { reg with connectingPending := name :: reg.connectingPending })

/-- Completion of a started attempt once the reachability fetch resolves
(part_010 lines 581-592): on `connect` success the client is stored as
connected and returned; on failure null is returned; either way the pending
entry is removed (the `finally` clause). -/
def ensureResolve (reg : Registry) (name : String) (fetch : FetchResult) :
    Option Unit × Registry :=
  if connectSucceeds fetch then
    (some (),
     { connections := (name, true) :: reg.connections.filter (fun e => !(e.1 == name)),
       connectingPending := reg.connectingPending.filter (fun n => !(n == name)) })
  else
    (none, { reg with connectingPending := reg.connectingPending.filter (fun n => !(n == name)) })

/-- A solo `ensureConnection` call run to completion with the given fetch
outcome: start, and when a fresh attempt was started, resolve it. (In the
solo scenarios considered the `joinPending` case cannot arise; it is mapped
to null here.) -/
def ensureSolo (agents : List String) (reg : Registry) (name : String)
    (fetch : FetchResult) : Option Unit × Registry :=
  match ensureStart agents reg name with
  | (.started, reg') => ensureResolve reg' name fetch
  | (.existingConnected, reg') => (some (), reg')
  | (_, reg') => (none, reg')

/-- Iterate `ensureStart` for the same name `n` times with no resolution in
between (concurrent callers on the event loop), collecting the per-call
results. -/
def repeatEnsure (agents : List String) (reg : Registry) (name : String) :
    Nat → List EnsureStartResult × Registry
  | 0 => ([], reg)
  | n + 1 =>
    let (r, reg') := ensureStart agents reg name
    let (rs, reg'') := repeatEnsure agents reg' name n
    (r :: rs, reg'')

/-! ### Orchestrator turn model

`Orchestrator.chat` (src/unnamed/part_010 lines 312-426) and
`Orchestrator.processMentionRecursive` (lines 428-561). The network is an
environment oracle with private state `σ`; the cooperative event loop is
modelled by running the parallel `Promise.all` cohort in order, threading the
shared `globalMentionCount` exactly as each branch reads and writes it (each
read-check-add is a single synchronous block in the source, so it is atomic
under cooperative scheduling). A `Dispatch` is recorded at the entry of every
`processMentionRecursive` call, where the source fires `thread_start`. -/

/-- `MAX_TOTAL_MENTIONS` (src/unnamed/part_010 line 232). -/
def MAX_TOTAL_MENTIONS : Nat := 20

/-- Swarm configuration: agent names (`Object.keys(config.agents)` = the
mentionable vocabulary of the recursive orchestrator), master name, and
`maxMentionDepth`. -/
structure SwarmCfg where
  agents : List String
  master : String
  maxMentionDepth : Nat

/-- One dispatched branch: the target agent and the depth passed to
`processMentionRecursive`. -/
structure Dispatch where
  agent : String
  depth : Nat
deriving DecidableEq, Repr

/-- Environment oracle with private state `σ`. `send s agent msg` is the
result of `conn.sendMessage(msg)` on the connection of `agent`
(`none` = null); `ensure s agent` tells whether `ensureConnection(agent)`
produces a connection; `ctx from to depth` is the `buildSwarmContext` block
(impure in the source: it embeds a timestamp). The state lets the oracle
encode histories, failures and any interleaving resolved in advance. -/
structure Oracle (σ : Type) where
  send : σ → String → String → Option String × σ
  ensure : σ → String → Bool × σ
  ctx : String → String → Nat → String

/-- Branch result: the reply (`string | null`), the shared counter after the
branch, the oracle state, and the dispatches recorded in the subtree. -/
structure BranchRes (σ : Type) where
  reply : Option String
  count : Nat
  env : σ
  dispatches : List Dispatch

/-- Cohort result for a list of sibling branches. -/
structure ListRes (σ : Type) where
  replies : List (Option String)
  count : Nat
  env : σ
  dispatches : List Dispatch

/-- Run a cohort of sibling branches in order, threading the shared counter
and the oracle state and concatenating the dispatch lists. -/
def processChildren {σ : Type} (f : MentionMatch → Nat → σ → BranchRes σ) :
    List MentionMatch → Nat → σ → ListRes σ
  | [], count, s => ⟨[], count, s, []⟩
  | m :: rest, count, s =>
    let r := f m count s
    let rs := processChildren f rest r.count r.env
    ⟨r.reply :: rs.replies, rs.count, rs.env, r.dispatches ++ rs.dispatches⟩

/-- The thread replies folded back to the parent: one
`@agent replied: text` line per truthy child result
(part_010 lines 396-403 and 526-532). -/
def threadReplies (mentions : List MentionMatch) (results : List (Option String)) :
    List String :=
  (mentions.zip results).filterMap fun mr =>
    match mr.2 with
    | some t => if t.isEmpty then none else some ("@" ++ mr.1.agent ++ " replied: " ++ t)
    | none => none

/-- The follow-up synthesis message (part_010 lines 410 and 536). -/
def followUpMessage (replies : List String) : String :=
  "[Thread] " ++ String.intercalate "\n\n[Thread] " replies

/-- What one call of `processMentionRecursive` does up to the recursion
decision (part_010 lines 435-505): either it stops (connect failure, null
reply, or the guard `childMentions.length > 0 && depth < maxMentionDepth &&
count + childMentions.length <= MAX_TOTAL_MENTIONS` fails), or it is about
to recurse on the filtered child mentions. -/
inductive Prologue (σ : Type)
  | stopped (r : BranchRes σ)
  | recursing (result : String) (childMentions : List MentionMatch)
      (branchVisited : List String) (env : σ)

/-- The non-recursive prefix of `processMentionRecursive`: fire
`thread_start` (the dispatch), ensure the connection, send the message with
the swarm-context block prepended, and on a reply scan it for child mentions
excluding the replying agent and the branch visited set. -/
def branchPrologue {σ : Type} (cfg : SwarmCfg) (en : Oracle σ) (mention : MentionMatch)
    (parentAgent : String) (depth : Nat) (visited : List String) (count : Nat) (s : σ) :
    Prologue σ :=
  let d : Dispatch := ⟨mention.agent, depth⟩
  match en.ensure s mention.agent with
  | (false, s) => .stopped ⟨none, count, s, [d]⟩
  | (true, s) =>
    let msg := en.ctx parentAgent mention.agent depth ++ "\n" ++ mention.message
    match en.send s mention.agent msg with
    | (none, s) => .stopped ⟨none, count, s, [d]⟩
    | (some result, s) =>
      let branchVisited := mention.agent :: visited
      let childMentions := (extractMentions cfg.agents result mention.agent).filter
        fun m => !branchVisited.contains m.agent
      if !childMentions.isEmpty && decide (depth < cfg.maxMentionDepth)
          && decide (count + childMentions.length ≤ MAX_TOTAL_MENTIONS) then
        .recursing result childMentions branchVisited s
      else .stopped ⟨some result, count, s, [d]⟩

/-- `processMentionRecursive` (part_010 lines 428-561). When the guard
passes, the counter is incremented by the number of child mentions, the
children are dispatched at `depth + 1` with the cloned visited set, their
replies are folded into a follow-up sent back to this agent, and a truthy
synthesized reply replaces the branch result. `fuel` only bounds the
recursion: the cut-off branch is unreachable whenever
`fuel ≥ maxMentionDepth - depth`, because recursion is guarded by
`depth < maxMentionDepth`. -/
def processMentionRec {σ : Type} (cfg : SwarmCfg) (en : Oracle σ) :
    Nat → MentionMatch → String → Nat → List String → Nat → σ → BranchRes σ
  | 0, mention, parentAgent, depth, visited, count, s =>
    (match branchPrologue cfg en mention parentAgent depth visited count s with
     | .stopped r => r
     | .recursing result _ _ s' => ⟨some result, count, s', [⟨mention.agent, depth⟩]⟩)
  | fuel + 1, mention, parentAgent, depth, visited, count, s =>
    (match branchPrologue cfg en mention parentAgent depth visited count s with
     | .stopped r => r
     | .recursing result childMentions branchVisited s' =>
       let d : Dispatch := ⟨mention.agent, depth⟩
       let count1 := count + childMentions.length
       let lr := processChildren
         (fun cm c s =>
           processMentionRec cfg en fuel cm mention.agent (depth + 1) branchVisited c s)
         childMentions count1 s'
       let replies := threadReplies childMentions lr.replies
       if replies.isEmpty then
         ⟨some result, lr.count, lr.env, d :: lr.dispatches⟩
       else
         match en.send lr.env mention.agent (followUpMessage replies) with
         | (none, s2) => ⟨some result, lr.count, s2, d :: lr.dispatches⟩
         | (some t, s2) =>
           if t.isEmpty then ⟨some result, lr.count, s2, d :: lr.dispatches⟩
           else ⟨some t, lr.count, s2, d :: lr.dispatches⟩)

/-- Result of a whole turn: the final shared counter, the oracle state, and
all dispatches in order. -/
structure TurnRes (σ : Type) where
  count : Nat
  env : σ
  dispatches : List Dispatch

/-- The multi-turn mention loop of `chat` (part_010 lines 350-423): while the
master reply is truthy, extract mentions excluding the master; stop when
there are none or the round counter reached `maxMentionDepth`; increment the
round; stop (soft) when dispatching would push the counter past
`MAX_TOTAL_MENTIONS`; otherwise add, dispatch the cohort at depth 1 with
visited = the master, fold the replies into a follow-up to the master, and
loop on its reply. `fuel` only bounds the recursion: with
`fuel = maxMentionDepth - mentionRound` the cut-off branch coincides with the
round-guard stop. -/
def chatLoop {σ : Type} (cfg : SwarmCfg) (en : Oracle σ) :
    Nat → String → Nat → Nat → σ → TurnRes σ
  | 0, _, _, count, s => ⟨count, s, []⟩
  | fuel + 1, lastText, mentionRound, count, s =>
    let mentions := extractMentions cfg.agents lastText cfg.master
    if mentions.isEmpty || decide (mentionRound ≥ cfg.maxMentionDepth) then ⟨count, s, []⟩
    else if decide (count + mentions.length > MAX_TOTAL_MENTIONS) then ⟨count, s, []⟩
    else
      let count1 := count + mentions.length
      let lr := processChildren
        (fun m c s =>
          processMentionRec cfg en cfg.maxMentionDepth m cfg.master 1 [cfg.master] c s)
        mentions count1 s
      let replies := threadReplies mentions lr.replies
      if replies.isEmpty then ⟨lr.count, lr.env, lr.dispatches⟩
      else
        match en.send lr.env cfg.master (followUpMessage replies) with
        | (none, s2) => ⟨lr.count, s2, lr.dispatches⟩
        | (some t, s2) =>
          if t.isEmpty then ⟨lr.count, s2, lr.dispatches⟩
          else
            let next := chatLoop cfg en fuel t (mentionRound + 1) lr.count s2
            ⟨next.count, next.env, lr.dispatches ++ next.dispatches⟩

/-- `Orchestrator.chat` (part_010 lines 312-426): connect the master, send
the user message, and run the mention loop with `mentionRound = 0` and the
shared counter at 0. -/
def chat {σ : Type} (cfg : SwarmCfg) (en : Oracle σ) (userMessage : String) (s : σ) :
    TurnRes σ :=
  match en.ensure s cfg.master with
  | (false, s) => ⟨0, s, []⟩
  | (true, s) =>
    match en.send s cfg.master userMessage with
    | (none, s) => ⟨0, s, []⟩
    | (some t, s) =>
      if t.isEmpty then ⟨0, s, []⟩
      else chatLoop cfg en cfg.maxMentionDepth t 0 0 s

/-! ### Lemmas about mention extraction -/

/-- Every index produced by the scan from position `i` is at least `i`. -/
theorem scanAux_index_ge (names : List String) (text : List Char) :
    ∀ (fuel i : Nat), ∀ p ∈ scanAux names text fuel i, i ≤ p.1 := by
  intro fuel
  induction fuel with
  | zero => intro i p hp; simp [scanAux] at hp
  | succ fuel ih =>
    intro i p hp
    simp only [scanAux] at hp
    split at hp
    · split at hp
      · rcases List.mem_cons.mp hp with h | h
        · subst h; exact Nat.le_refl _
        · have := ih _ p h; omega
      · have := ih _ p hp; omega
    · simp at hp

/-- The scan reports matches at strictly increasing indices
(left-to-right order). -/
theorem scanAux_pairwise_lt (names : List String) (text : List Char) :
    ∀ (fuel i : Nat), ((scanAux names text fuel i).map Prod.fst).Pairwise (· < ·) := by
  intro fuel
  induction fuel with
  | zero => intro i; simp [scanAux]
  | succ fuel ih =>
    intro i
    simp only [scanAux]
    split
    · split
      · rename_i nm _
        refine List.pairwise_cons.mpr ⟨?_, ih _⟩
        intro j hj
        rcases List.mem_map.mp hj with ⟨p, hp, hpe⟩
        have := scanAux_index_ge names text fuel (i + 1 + nm.length) p hp
        omega
      · exact ih _
    · simp

/-- The extraction output is a sublist of the candidate list: each reported
mention is one of the raw matches paired with its trimmed fragment, and the
relative order of the matches is preserved. -/
theorem extractLoop_subl (text : List Char) (excl : String) :
    ∀ (ms : List (Nat × String)) (seen : List String),
      List.Sublist (extractLoop text excl ms seen) (candLoop text ms) := by
  intro ms
  induction ms with
  | nil => intro seen; simp [extractLoop, candLoop]
  | cons hd rest ih =>
    intro seen
    obtain ⟨idx, agent⟩ := hd
    simp only [extractLoop, candLoop]
    split
    · exact List.Sublist.cons _ (ih seen)
    · split
      · exact List.Sublist.cons _ (ih (agent :: seen))
      · exact List.Sublist.cons₂ _ (ih (agent :: seen))

/-- An agent already in the seen set never appears in the extraction output:
the seen set only grows along the loop. -/
theorem extractLoop_seen_excluded (text : List Char) (excl : String) :
    ∀ (ms : List (Nat × String)) (seen : List String) (a : String), a ∈ seen →
      a ∉ (extractLoop text excl ms seen).map MentionMatch.agent := by
  intro ms
  induction ms with
  | nil => intro seen a _ h; simp [extractLoop] at h
  | cons hd rest ih =>
    intro seen a ha
    obtain ⟨idx, agent⟩ := hd
    simp only [extractLoop]
    split
    · exact ih seen a ha
    · rename_i hcond
      have hagent : agent ∉ seen := by
        intro hmem
        apply hcond
        have h1 : seen.contains agent = true := List.elem_iff.mpr hmem
        rw [Bool.or_eq_true]
        exact Or.inr h1
      split
      · exact ih (agent :: seen) a (List.mem_cons_of_mem _ ha)
      · simp only [List.map_cons, List.mem_cons, not_or]
        refine ⟨?_, ih (agent :: seen) a (List.mem_cons_of_mem _ ha)⟩
        intro h
        exact hagent (h ▸ ha)

/-- The extraction output mentions each agent at most once. -/
theorem extractLoop_agents_nodup (text : List Char) (excl : String) :
    ∀ (ms : List (Nat × String)) (seen : List String),
      ((extractLoop text excl ms seen).map MentionMatch.agent).Nodup := by
  intro ms
  induction ms with
  | nil => intro seen; simp [extractLoop]
  | cons hd rest ih =>
    intro seen
    obtain ⟨idx, agent⟩ := hd
    simp only [extractLoop]
    split
    · exact ih seen
    · split
      · exact ih (agent :: seen)
      · simp only [List.map_cons]
        refine List.nodup_cons.mpr ⟨?_, ih (agent :: seen)⟩
        exact extractLoop_seen_excluded text excl rest (agent :: seen) agent
          (List.mem_cons_self _ _)

/-- If the first raw match of agent `a` carries an empty trimmed fragment,
`a` never reaches the output: the loop marks it seen before checking the
fragment, so every later occurrence of `a` is dropped as well. -/
theorem extractLoop_first_empty (text : List Char) (excl : String) :
    ∀ (ms : List (Nat × String)) (seen : List String) (a : String)
      (c₁ c₂ : List MentionMatch),
      candLoop text ms = c₁ ++ ⟨a, ""⟩ :: c₂ →
      a ∉ c₁.map MentionMatch.agent →
      a ∉ seen → a ≠ excl →
      a ∉ (extractLoop text excl ms seen).map MentionMatch.agent := by
  intro ms
  induction ms with
  | nil =>
    intro seen a c₁ c₂ hc _ _ _
    simp [candLoop] at hc
  | cons hd rest ih =>
    intro seen a c₁ c₂ hc hnot hseen hexcl
    obtain ⟨idx, agent⟩ := hd
    simp only [candLoop] at hc
    match c₁, hc with
    | [], hc =>
      simp only [List.nil_append, List.cons.injEq, MentionMatch.mk.injEq] at hc
      obtain ⟨⟨hagent, hmsg⟩, htl⟩ := hc
      subst hagent
      simp only [extractLoop]
      split
      · rename_i hcond
        simp only [Bool.or_eq_true, beq_iff_eq, List.elem_iff] at hcond
        rcases hcond with h | h
        · exact absurd h hexcl
        · exact absurd h hseen
      · split
        · exact extractLoop_seen_excluded text excl rest (agent :: seen) agent
            (List.mem_cons_self _ _)
        · rename_i hne
          rw [hmsg] at hne
          exact absurd (by decide) hne
    | cHead :: c₁', hc =>
      simp only [List.cons_append, List.cons.injEq] at hc
      obtain ⟨hhd, htl⟩ := hc
      have hne : a ≠ agent := by
        intro h
        apply hnot
        simp only [List.map_cons, List.mem_cons]
        exact Or.inl (by rw [← hhd, h])
      have hnot' : a ∉ c₁'.map MentionMatch.agent := by
        intro h
        exact hnot (by simp only [List.map_cons, List.mem_cons]; exact Or.inr h)
      simp only [extractLoop]
      split
      · exact ih seen a c₁' c₂ htl hnot' hseen hexcl
      · split
        · exact ih (agent :: seen) a c₁' c₂ htl hnot'
            (by simp only [List.mem_cons, not_or]; exact ⟨hne, hseen⟩) hexcl
        · intro hmem
          rcases List.mem_map.mp hmem with ⟨m, hm, hme⟩
          rcases List.mem_cons.mp hm with h | h
          · exact hne (by rw [← hme, h])
          · exact ih (agent :: seen) a c₁' c₂ htl hnot'
              (by simp only [List.mem_cons, not_or]; exact ⟨hne, hseen⟩) hexcl
              (List.mem_map.mpr ⟨m, h, hme⟩)

/-! ### Lemmas about the streaming client -/

/-- The value `sendMessage` returns, for every outcome: the accumulated text
when it is non-empty, null otherwise. -/
theorem sendMessage_ret_eq (h : List (String × String)) (m : String) (o : SendOutcome) :
    (sendMessage h m o).ret = if (accText o).isEmpty then none else some (accText o) := by
  have hemp : ("" : String).isEmpty = true := by decide
  cases o with
  | netError msg => simp [sendMessage, accText, hemp]
  | httpError s body => simp [sendMessage, accText, hemp]
  | stream frames streamErr =>
    cases streamErr with
    | none =>
      by_cases he : (runFrames frames).fullText.isEmpty
      · simp [sendMessage, accText, he]
      · simp [sendMessage, accText, he]
    | some msg =>
      by_cases he : (runFrames frames).fullText.isEmpty
      · simp [sendMessage, accText, he]
      · simp [sendMessage, accText, he]

/-- The history `sendMessage` leaves behind, for every outcome: the user
message is always appended, an assistant entry exactly when the accumulated
text is non-empty. -/
theorem sendMessage_history_eq (h : List (String × String)) (m : String) (o : SendOutcome) :
    (sendMessage h m o).history
      = h ++ [("user", m)]
          ++ (if (accText o).isEmpty then [] else [("assistant", accText o)]) := by
  have hemp : ("" : String).isEmpty = true := by decide
  cases o with
  | netError msg => simp [sendMessage, accText, hemp]
  | httpError s body => simp [sendMessage, accText, hemp]
  | stream frames streamErr =>
    cases streamErr with
    | none =>
      by_cases he : (runFrames frames).fullText.isEmpty
      · simp [sendMessage, accText, he]
      · simp [sendMessage, accText, he]
    | some msg =>
      by_cases he : (runFrames frames).fullText.isEmpty
      · simp [sendMessage, accText, he]
      · simp [sendMessage, accText, he]

/-- Roles appended by a run of successful sends: each call adds a user entry
then an assistant entry. -/
theorem runSends_roles (calls : List (String × SendOutcome)) :
    ∀ (h : List (String × String)),
      (∀ c ∈ calls, (accText c.2).isEmpty = false) →
      (runSends h calls).map Prod.fst
        = h.map Prod.fst ++ (calls.map fun _ => ["user", "assistant"]).flatten := by
  induction calls with
  | nil => intro h _; simp [runSends]
  | cons c cs ih =>
    intro h hall
    have hc : (accText c.2).isEmpty = false := hall c (List.mem_cons_self _ _)
    have hcs : ∀ x ∈ cs, (accText x.2).isEmpty = false :=
      fun x hx => hall x (List.mem_cons_of_mem _ hx)
    have hstep : runSends h (c :: cs) = runSends (sendMessage h c.1 c.2).history cs := by
      simp [runSends]
    rw [hstep, ih _ hcs, sendMessage_history_eq, hc]
    simp

/-! ### Theorems for the claims -/

/-- C3: extractMentions reports matches in left-to-right order (the raw match
indices are strictly increasing), each reported mention is one of the raw
candidates, in order, whose message is exactly the text from immediately
after its match to immediately before the next match (or the end), trimmed;
and on the concrete example the result is
`[(alice, check X), (bob, check Y)]` in that order. -/
theorem C3_mentions_in_order_with_fragments :
    (∀ (names : List String) (text : String),
      ((scanMatches names text.data).map Prod.fst).Pairwise (· < ·))
    ∧ (∀ (names : List String) (text excl : String),
        List.Sublist (extractMentions names text excl) (candidateMentions names text))
    ∧ extractMentions ["alice", "bob"] "@alice check X @bob check Y" "master"
        = [⟨"alice", "check X"⟩, ⟨"bob", "check Y"⟩] := by
  refine ⟨?_, ?_, by decide⟩
  · intro names text
    exact scanAux_pairwise_lt names text.data text.data.length 0
  · intro names text excl
    exact extractLoop_subl text.data excl (scanMatches names text.data) []

/-- C3 witness: the general sublist statement applied at the concrete
example. -/
theorem C3_witness :
    List.Sublist (extractMentions ["alice", "bob"] "@alice check X @bob check Y" "master")
      (candidateMentions ["alice", "bob"] "@alice check X @bob check Y") :=
  C3_mentions_in_order_with_fragments.2.1 ["alice", "bob"] "@alice check X @bob check Y"
    "master"

/-- C4 counterexample: the claim asserts that
`extract("@alice @alice hi")` over vocabulary `{alice}` returns exactly one
mention for alice; the code returns no mention at all, because the first
match carries an empty fragment (it is dropped but alice is marked seen) and
the second occurrence is deduplicated. -/
theorem C4_counterexample_duplicate_mention :
    ¬ ∃ m : MentionMatch, extractMentions ["alice"] "@alice @alice hi" "master" = [m] := by
  have h : extractMentions ["alice"] "@alice @alice hi" "master" = [] := by decide
  rintro ⟨m, hm⟩
  rw [h] at hm
  cases hm

/-- C4 amended: extractMentions reports each target agent at most once per
call with the first occurrence winning; but `extract("@alice @alice hi")`
returns no mention, since the message fragment of the first occurrence is
empty (the occurrence is dropped while still marking alice as seen) and the
second occurrence is suppressed by the dedup. -/
theorem C4_first_occurrence_wins :
    (∀ (names : List String) (text excl : String),
      ((extractMentions names text excl).map MentionMatch.agent).Nodup)
    ∧ extractMentions ["alice"] "@alice @alice hi" "master" = [] := by
  refine ⟨?_, by decide⟩
  intro names text excl
  exact extractLoop_agents_nodup text.data excl (scanMatches names text.data) []

/-- C10: a matched agent whose first fragment (text up to the next match or
the end, trimmed) is empty never reaches the output, even when the same
agent occurs again later (it was recorded as seen); concretely, an agent
mentioned immediately before another mention, or at the very end with no
following words, is never dispatched. -/
theorem C10_empty_fragment_suppresses_agent :
    (∀ (names : List String) (text excl a : String) (c₁ c₂ : List MentionMatch),
      candidateMentions names text = c₁ ++ ⟨a, ""⟩ :: c₂ →
      a ∉ c₁.map MentionMatch.agent →
      a ≠ excl →
      a ∉ (extractMentions names text excl).map MentionMatch.agent)
    ∧ extractMentions ["alice", "bob"] "@alice @bob go" "master" = [⟨"bob", "go"⟩]
    ∧ extractMentions ["alice"] "ping @alice" "master" = [] := by
  refine ⟨?_, by decide, by decide⟩
  intro names text excl a c₁ c₂ hc hnot hexcl
  exact extractLoop_first_empty text.data excl (scanMatches names text.data) [] a c₁ c₂
    hc hnot (by simp) hexcl

/-- C10 witness: the general statement applied at the concrete example, where
alice is mentioned immediately before the bob mention. -/
theorem C10_witness :
    "alice" ∉ (extractMentions ["alice", "bob"] "@alice @bob go" "master").map
      MentionMatch.agent :=
  C10_empty_fragment_suppresses_agent.1 ["alice", "bob"] "@alice @bob go" "master" "alice"
    [] [⟨"bob", "go"⟩] (by decide) (by decide) (by decide)

/-- C5 counterexample: the claim asserts that on an HTTP 429 reachability
response `connect` treats the agent as reachable and `ensureConnection`
returns a connected client; in the code `connect` throws on any `!res.ok`
response, so with status 429 `ensureConnection` returns null. -/
theorem C5_counterexample_http429 :
    (ensureSolo ["alice"] ⟨[], []⟩ "alice" (.response 429 "")).1 = none
    ∧ connectSucceeds (.response 429 "") = false := by decide

/-- C5 amended: `connect` treats the agent as reachable only when the
reachability response is ok (2xx); any non-2xx status, including error
statuses below 500 such as 429, makes `connect` throw, and `ensureConnection`
then returns null. (A status-below-500 test exists in the repository only in
the endpoint discovery probe and the gateway health poll, not in
`OpenClawConnection.connect`.) -/
theorem C5_connect_requires_ok_status :
    ∀ (s : Nat) (body : String),
      (ensureSolo ["alice"] ⟨[], []⟩ "alice" (.response s body)).1
        = (if statusOk s then some () else none)
      ∧ connectSucceeds (.response s body) = statusOk s := by
  intro s body
  refine ⟨?_, rfl⟩
  by_cases h : statusOk s = true
  · simp [ensureSolo, ensureStart, ensureResolve, isConnectedIn, connectSucceeds, h]
  · simp only [Bool.not_eq_true] at h
    simp [ensureSolo, ensureStart, ensureResolve, isConnectedIn, connectSucceeds, h]

/-- C6: on a stream of one tool-call delta frame, two content deltas and a
stop frame, the client emits exactly one tool_start and exactly one tool_end,
the tool_end fired when the first content delta arrives, and the returned
text is the concatenation of the two content deltas. -/
theorem C6_tool_lifecycle_scenario :
    (sendMessage [] "q" (.stream
        [⟨some [⟨some "call_1", none, some "search", none⟩], none, none⟩,
         ⟨none, some "Hello ", none⟩,
         ⟨none, some "world", none⟩,
         ⟨none, none, some "stop"⟩] none)).events
      = [.toolStart "search" "call_1", .toolEnd "search" "call_1",
         .delta "Hello ", .delta "world"]
    ∧ (sendMessage [] "q" (.stream
        [⟨some [⟨some "call_1", none, some "search", none⟩], none, none⟩,
         ⟨none, some "Hello ", none⟩,
         ⟨none, some "world", none⟩,
         ⟨none, none, some "stop"⟩] none)).ret
      = some ("Hello " ++ "world") := by decide

/-- C7: for every call to sendMessage, a fetch or HTTP failure before any
bytes are read returns null and leaves the history with the user message
appended and no assistant entry (accumulated text empty); a mid-stream
failure after partial text returns the partial text and appends it; in every
case the return value is the accumulated text iff non-empty and an assistant
entry is appended iff the accumulated text is non-empty. -/
theorem C7_failure_modes :
    ∀ (h : List (String × String)) (m : String) (o : SendOutcome),
      (sendMessage h m o).ret
        = (if (accText o).isEmpty then none else some (accText o))
      ∧ (sendMessage h m o).history
        = h ++ [("user", m)]
            ++ (if (accText o).isEmpty then [] else [("assistant", accText o)])
      ∧ accText (.netError "refused") = ""
      ∧ ∀ (frames : List Frame) (msg : String),
          accText (.stream frames (some msg)) = (runFrames frames).fullText :=
  fun h m o =>
    ⟨sendMessage_ret_eq h m o, sendMessage_history_eq h m o, rfl, fun _ _ => rfl⟩

/-- C8 counterexample: the claim asserts every sequence of sendMessage calls
keeps the entries strictly alternating user/assistant; after two failed sends
(null returns) the history holds two consecutive user entries. -/
theorem C8_counterexample_failed_send :
    altOk (runSends (initHistory none)
        [("a", .netError "down"), ("b", .netError "down")]) = false
    ∧ (runSends (initHistory none)
        [("a", .netError "down"), ("b", .netError "down")]).map Prod.fst
      = ["user", "user"] := by decide

/-- C8 amended: the history begins with a system entry when the agent has a
truthy systemPrompt, and entries strictly alternate user/assistant provided
every sendMessage call succeeds (returns non-null); a failed call appends
only the user entry, breaking strict alternation. -/
theorem C8_alternation_on_success :
    (∀ p : String, p.isEmpty = false → initHistory (some p) = [("system", p)])
    ∧ ∀ (sysPrompt : Option String) (calls : List (String × SendOutcome)),
        (∀ c ∈ calls, (accText c.2).isEmpty = false) →
        (runSends (initHistory sysPrompt) calls).map Prod.fst
          = (initHistory sysPrompt).map Prod.fst
            ++ (calls.map fun _ => ["user", "assistant"]).flatten := by
  constructor
  · intro p hp
    simp [initHistory, truthy, hp]
  · intro sysPrompt calls hall
    exact runSends_roles calls (initHistory sysPrompt) hall

/-- C8 witness: a successful run from a system prompt yields the alternating
role pattern. -/
theorem C8_witness :
    (runSends (initHistory (some "S"))
        [("a", SendOutcome.stream [⟨none, some "x", none⟩] none)]).map Prod.fst
      = (initHistory (some "S")).map Prod.fst
        ++ ([("a", SendOutcome.stream [⟨none, some "x", none⟩] none)].map
            fun _ => ["user", "assistant"]).flatten :=
  C8_alternation_on_success.2 (some "S")
    [("a", SendOutcome.stream [⟨none, some "x", none⟩] none)] (by decide)

/-- A registry with a pending attempt for `name` sends every further
`ensureConnection` call for that name to the same pending promise, without
touching the registry. -/
theorem repeatEnsure_pending (agents : List String) (reg : Registry) (name : String)
    (h1 : isConnectedIn reg name = false) (h2 : name ∈ reg.connectingPending) :
    ∀ n : Nat, repeatEnsure agents reg name n
      = (List.replicate n .joinPending, reg) := by
  intro n
  induction n with
  | zero => simp [repeatEnsure]
  | succ n ih =>
    have hstart : ensureStart agents reg name = (.joinPending, reg) := by
      simp [ensureStart, h1, h2]
    simp [repeatEnsure, hstart, ih, List.replicate_succ]

/-- C9: concurrent ensureConnection calls for one agent perform exactly one
reachability check. From a state where the agent is not connected and no
attempt is pending, the first of `n + 1` consecutive calls (no resolution in
between, as on the event loop all of them run before the fetch resolves)
starts the single attempt and every later call joins the same pending
attempt. -/
theorem C9_connection_attempt_dedup :
    ∀ (agents : List String) (reg : Registry) (name : String) (n : Nat),
      name ∈ agents →
      isConnectedIn reg name = false →
      name ∉ reg.connectingPending →
      (repeatEnsure agents reg name (n + 1)).1
        = .started :: List.replicate n .joinPending := by
  intro agents reg name n hmem hconn hpend
  have hstart : ensureStart agents reg name
      = (.started, { reg with connectingPending := name :: reg.connectingPending }) := by
    simp [ensureStart, hconn, hpend, hmem]
  have hconn' : isConnectedIn { reg with connectingPending := name :: reg.connectingPending }
      name = false := hconn
  have hpend' : name ∈ (name :: reg.connectingPending) := List.mem_cons_self _ _
  simp [repeatEnsure, hstart,
    repeatEnsure_pending agents _ name hconn' hpend' n]

/-- C9 witness: three concurrent calls from a fresh registry yield one
started attempt and two joins. -/
theorem C9_witness :
    (repeatEnsure ["alice"] ⟨[], []⟩ "alice" 3).1
      = .started :: List.replicate 2 .joinPending :=
  C9_connection_attempt_dedup ["alice"] ⟨[], []⟩ "alice" 2 (by decide) (by decide)
    (by decide)

/-! ### Lemmas about the orchestrator turn -/

/-- Every stopped prologue keeps the counter unchanged and records exactly
its own dispatch. -/
theorem branchPrologue_stopped_inv {σ : Type} (cfg : SwarmCfg) (en : Oracle σ)
    (mention : MentionMatch) (parentAgent : String) (depth : Nat) (visited : List String)
    (count : Nat) (s : σ) (r : BranchRes σ) :
    branchPrologue cfg en mention parentAgent depth visited count s = .stopped r →
    r.count = count ∧ r.dispatches = [⟨mention.agent, depth⟩] := by
  intro h
  unfold branchPrologue at h
  split at h
  · cases h; exact ⟨rfl, rfl⟩
  · dsimp only at h
    split at h
    · cases h; exact ⟨rfl, rfl⟩
    · split at h
      · simp at h
      · cases h; exact ⟨rfl, rfl⟩

/-- A recursing prologue implies the source guard held: room below the depth
limit and below the global mention cap. -/
theorem branchPrologue_recursing_inv {σ : Type} (cfg : SwarmCfg) (en : Oracle σ)
    (mention : MentionMatch) (parentAgent : String) (depth : Nat) (visited : List String)
    (count : Nat) (s : σ) (result : String) (cm : List MentionMatch)
    (bv : List String) (s' : σ) :
    branchPrologue cfg en mention parentAgent depth visited count s
      = .recursing result cm bv s' →
    depth < cfg.maxMentionDepth ∧ count + cm.length ≤ MAX_TOTAL_MENTIONS := by
  intro h
  unfold branchPrologue at h
  split at h
  · simp at h
  · dsimp only at h
    split at h
    · simp at h
    · split at h
      · rename_i hguard
        cases h
        simp only [Bool.and_eq_true, decide_eq_true_eq] at hguard
        exact ⟨hguard.1.2, hguard.2⟩
      · simp at h

/-- The counter never decreases across a cohort when it never decreases
across each branch. -/
theorem processChildren_mono {σ : Type} (f : MentionMatch → Nat → σ → BranchRes σ)
    (hf : ∀ m c s, c ≤ (f m c s).count) :
    ∀ (ms : List MentionMatch) (c : Nat) (s : σ),
      c ≤ (processChildren f ms c s).count := by
  intro ms
  induction ms with
  | nil => intro c s; exact Nat.le_refl _
  | cons m rest ih =>
    intro c s
    have h1 := hf m c s
    have h2 := ih (f m c s).count (f m c s).env
    exact Nat.le_trans h1 h2

/-- The cap is preserved across a cohort when it is preserved across each
branch. -/
theorem processChildren_bound {σ : Type} (f : MentionMatch → Nat → σ → BranchRes σ)
    (hf : ∀ m c s, c ≤ MAX_TOTAL_MENTIONS → (f m c s).count ≤ MAX_TOTAL_MENTIONS) :
    ∀ (ms : List MentionMatch) (c : Nat) (s : σ),
      c ≤ MAX_TOTAL_MENTIONS → (processChildren f ms c s).count ≤ MAX_TOTAL_MENTIONS := by
  intro ms
  induction ms with
  | nil => intro c s hc; exact hc
  | cons m rest ih =>
    intro c s hc
    exact ih (f m c s).count (f m c s).env (hf m c s hc)

/-- Counter accounting for a cohort: when every branch adds exactly its
subtree dispatch count minus its own dispatch to the counter, a cohort of
`ms.length` branches adds its total dispatch count minus `ms.length`. -/
theorem processChildren_account {σ : Type} (f : MentionMatch → Nat → σ → BranchRes σ)
    (hf : ∀ m c s, (f m c s).count + 1 = c + (f m c s).dispatches.length) :
    ∀ (ms : List MentionMatch) (c : Nat) (s : σ),
      (processChildren f ms c s).count + ms.length
        = c + (processChildren f ms c s).dispatches.length := by
  intro ms
  induction ms with
  | nil => intro c s; simp [processChildren]
  | cons m rest ih =>
    intro c s
    have h1 := hf m c s
    have h2 := ih (f m c s).count (f m c s).env
    simp only [processChildren, List.length_cons, List.length_append]
    omega

/-- A dispatch property propagates from branches to cohorts. -/
theorem processChildren_disp {σ : Type} (f : MentionMatch → Nat → σ → BranchRes σ)
    (P : Dispatch → Prop)
    (hf : ∀ m c s, ∀ d ∈ (f m c s).dispatches, P d) :
    ∀ (ms : List MentionMatch) (c : Nat) (s : σ),
      ∀ d ∈ (processChildren f ms c s).dispatches, P d := by
  intro ms
  induction ms with
  | nil => intro c s d hd; simp [processChildren] at hd
  | cons m rest ih =>
    intro c s d hd
    simp only [processChildren, List.mem_append] at hd
    rcases hd with hd | hd
    · exact hf m c s d hd
    · exact ih (f m c s).count (f m c s).env d hd

/-- The shared counter never decreases across one branch. -/
theorem processMentionRec_mono {σ : Type} (cfg : SwarmCfg) (en : Oracle σ) :
    ∀ (fuel : Nat) (m : MentionMatch) (p : String) (depth : Nat) (v : List String)
      (c : Nat) (s : σ),
      c ≤ (processMentionRec cfg en fuel m p depth v c s).count := by
  intro fuel
  induction fuel with
  | zero =>
    intro m p depth v c s
    simp only [processMentionRec]
    split
    · rename_i r heq
      have := (branchPrologue_stopped_inv cfg en m p depth v c s r heq).1
      omega
    · exact Nat.le_refl _
  | succ fuel ih =>
    intro m p depth v c s
    simp only [processMentionRec]
    split
    · rename_i r heq
      have := (branchPrologue_stopped_inv cfg en m p depth v c s r heq).1
      omega
    · rename_i result cm bv s' heq
      have hmono := processChildren_mono
        (fun cm2 c2 s2 => processMentionRec cfg en fuel cm2 m.agent (depth + 1) bv c2 s2)
        (fun m2 c2 s2 => ih m2 m.agent (depth + 1) bv c2 s2) cm (c + cm.length) s'
      have hstep : c ≤ c + cm.length := Nat.le_add_right _ _
      split
      · exact Nat.le_trans hstep hmono
      · split
        · exact Nat.le_trans hstep hmono
        · split
          · exact Nat.le_trans hstep hmono
          · exact Nat.le_trans hstep hmono

/-- The global cap is preserved across one branch: a branch whose incoming
counter is within the cap leaves it within the cap (the guard refuses to add
past the cap). -/
theorem processMentionRec_bound {σ : Type} (cfg : SwarmCfg) (en : Oracle σ) :
    ∀ (fuel : Nat) (m : MentionMatch) (p : String) (depth : Nat) (v : List String)
      (c : Nat) (s : σ),
      c ≤ MAX_TOTAL_MENTIONS →
      (processMentionRec cfg en fuel m p depth v c s).count ≤ MAX_TOTAL_MENTIONS := by
  intro fuel
  induction fuel with
  | zero =>
    intro m p depth v c s hc
    simp only [processMentionRec]
    split
    · rename_i r heq
      have := (branchPrologue_stopped_inv cfg en m p depth v c s r heq).1
      omega
    · exact hc
  | succ fuel ih =>
    intro m p depth v c s hc
    simp only [processMentionRec]
    split
    · rename_i r heq
      have := (branchPrologue_stopped_inv cfg en m p depth v c s r heq).1
      omega
    · rename_i result cm bv s' heq
      have hcap := (branchPrologue_recursing_inv cfg en m p depth v c s result cm bv
        s' heq).2
      have hbound := processChildren_bound
        (fun cm2 c2 s2 => processMentionRec cfg en fuel cm2 m.agent (depth + 1) bv c2 s2)
        (fun m2 c2 s2 => ih m2 m.agent (depth + 1) bv c2 s2) cm (c + cm.length) s' hcap
      split
      · exact hbound
      · split
        · exact hbound
        · split
          · exact hbound
          · exact hbound

/-- Counter accounting for one branch: the counter grows by exactly the
number of dispatches in the subtree minus the one dispatch the parent
already paid for. -/
theorem processMentionRec_account {σ : Type} (cfg : SwarmCfg) (en : Oracle σ) :
    ∀ (fuel : Nat) (m : MentionMatch) (p : String) (depth : Nat) (v : List String)
      (c : Nat) (s : σ),
      (processMentionRec cfg en fuel m p depth v c s).count + 1
        = c + (processMentionRec cfg en fuel m p depth v c s).dispatches.length := by
  intro fuel
  induction fuel with
  | zero =>
    intro m p depth v c s
    simp only [processMentionRec]
    split
    · rename_i r heq
      obtain ⟨h1, h2⟩ := branchPrologue_stopped_inv cfg en m p depth v c s r heq
      rw [h1, h2]
      simp
    · simp
  | succ fuel ih =>
    intro m p depth v c s
    simp only [processMentionRec]
    split
    · rename_i r heq
      obtain ⟨h1, h2⟩ := branchPrologue_stopped_inv cfg en m p depth v c s r heq
      rw [h1, h2]
      simp
    · rename_i result cm bv s' heq
      have hacc := processChildren_account
        (fun cm2 c2 s2 => processMentionRec cfg en fuel cm2 m.agent (depth + 1) bv c2 s2)
        (fun m2 c2 s2 => ih m2 m.agent (depth + 1) bv c2 s2) cm (c + cm.length) s'
      split
      · simp only [List.length_cons]; omega
      · split
        · simp only [List.length_cons]; omega
        · split
          · simp only [List.length_cons]; omega
          · simp only [List.length_cons]; omega

/-- Depth bound for one branch: entered at `depth ≤ maxMentionDepth`, every
dispatch in the subtree has depth between the entry depth and
`maxMentionDepth` (children are only dispatched under the guard
`depth < maxMentionDepth`, at `depth + 1`). -/
theorem processMentionRec_depth {σ : Type} (cfg : SwarmCfg) (en : Oracle σ) :
    ∀ (fuel : Nat) (m : MentionMatch) (p : String) (depth : Nat) (v : List String)
      (c : Nat) (s : σ),
      depth ≤ cfg.maxMentionDepth →
      ∀ d ∈ (processMentionRec cfg en fuel m p depth v c s).dispatches,
        depth ≤ d.depth ∧ d.depth ≤ cfg.maxMentionDepth := by
  intro fuel
  induction fuel with
  | zero =>
    intro m p depth v c s hdep d hd
    simp only [processMentionRec] at hd
    split at hd
    · rename_i r heq
      rw [(branchPrologue_stopped_inv cfg en m p depth v c s r heq).2] at hd
      simp only [List.mem_singleton] at hd
      subst hd
      exact ⟨Nat.le_refl _, hdep⟩
    · simp only [List.mem_singleton] at hd
      subst hd
      exact ⟨Nat.le_refl _, hdep⟩
  | succ fuel ih =>
    intro m p depth v c s hdep d hd
    simp only [processMentionRec] at hd
    split at hd
    · rename_i r heq
      rw [(branchPrologue_stopped_inv cfg en m p depth v c s r heq).2] at hd
      simp only [List.mem_singleton] at hd
      subst hd
      exact ⟨Nat.le_refl _, hdep⟩
    · rename_i result cm bv s' heq
      have hlt := (branchPrologue_recursing_inv cfg en m p depth v c s result cm bv
        s' heq).1
      have hchild := processChildren_disp
        (fun cm2 c2 s2 => processMentionRec cfg en fuel cm2 m.agent (depth + 1) bv c2 s2)
        (fun d2 => depth + 1 ≤ d2.depth ∧ d2.depth ≤ cfg.maxMentionDepth)
        (fun m2 c2 s2 => ih m2 m.agent (depth + 1) bv c2 s2 (by omega))
        cm (c + cm.length) s'
      have hmem : d = Dispatch.mk m.agent depth ∨
          d ∈ (processChildren
            (fun cm2 c2 s2 => processMentionRec cfg en fuel cm2 m.agent (depth + 1) bv c2 s2)
            cm (c + cm.length) s').dispatches := by
        split at hd
        · simpa using List.mem_cons.mp hd
        · split at hd
          · simpa using List.mem_cons.mp hd
          · split at hd
            · simpa using List.mem_cons.mp hd
            · simpa using List.mem_cons.mp hd
      rcases hmem with h | h
      · subst h
        exact ⟨Nat.le_refl _, hdep⟩
      · have := hchild d h
        omega

/-- The shared counter never decreases across the mention loop. -/
theorem chatLoop_mono {σ : Type} (cfg : SwarmCfg) (en : Oracle σ) :
    ∀ (fuel : Nat) (t : String) (round c : Nat) (s : σ),
      c ≤ (chatLoop cfg en fuel t round c s).count := by
  intro fuel
  induction fuel with
  | zero => intro t round c s; exact Nat.le_refl _
  | succ fuel ih =>
    intro t round c s
    simp only [chatLoop]
    split
    · exact Nat.le_refl _
    · split
      · exact Nat.le_refl _
      · have hmono := processChildren_mono
          (fun m c2 s2 =>
            processMentionRec cfg en cfg.maxMentionDepth m cfg.master 1 [cfg.master] c2 s2)
          (fun m2 c2 s2 =>
            processMentionRec_mono cfg en cfg.maxMentionDepth m2 cfg.master 1 [cfg.master]
              c2 s2)
          (extractMentions cfg.agents t cfg.master)
          (c + (extractMentions cfg.agents t cfg.master).length) s
        have hstep : c ≤ c + (extractMentions cfg.agents t cfg.master).length :=
          Nat.le_add_right _ _
        split
        · exact Nat.le_trans hstep hmono
        · split
          · exact Nat.le_trans hstep hmono
          · split
            · exact Nat.le_trans hstep hmono
            · exact Nat.le_trans (Nat.le_trans hstep hmono) (ih _ _ _ _)

/-- The mention loop preserves the global cap: the pre-dispatch check
refuses any addition that would push the counter past it. -/
theorem chatLoop_bound {σ : Type} (cfg : SwarmCfg) (en : Oracle σ) :
    ∀ (fuel : Nat) (t : String) (round c : Nat) (s : σ),
      c ≤ MAX_TOTAL_MENTIONS →
      (chatLoop cfg en fuel t round c s).count ≤ MAX_TOTAL_MENTIONS := by
  intro fuel
  induction fuel with
  | zero => intro t round c s hc; exact hc
  | succ fuel ih =>
    intro t round c s hc
    simp only [chatLoop]
    split
    · exact hc
    · split
      · exact hc
      · rename_i hcap
        simp only [decide_eq_true_eq, Nat.not_lt] at hcap
        have hcap' : c + (extractMentions cfg.agents t cfg.master).length
            ≤ MAX_TOTAL_MENTIONS := by omega
        have hbound := processChildren_bound
          (fun m c2 s2 =>
            processMentionRec cfg en cfg.maxMentionDepth m cfg.master 1 [cfg.master] c2 s2)
          (fun m2 c2 s2 =>
            processMentionRec_bound cfg en cfg.maxMentionDepth m2 cfg.master 1 [cfg.master]
              c2 s2)
          (extractMentions cfg.agents t cfg.master)
          (c + (extractMentions cfg.agents t cfg.master).length) s hcap'
        split
        · exact hbound
        · split
          · exact hbound
          · split
            · exact hbound
            · exact ih _ _ _ _ hbound

/-- Counter accounting for the mention loop: the counter grows by exactly
the number of dispatches. -/
theorem chatLoop_account {σ : Type} (cfg : SwarmCfg) (en : Oracle σ) :
    ∀ (fuel : Nat) (t : String) (round c : Nat) (s : σ),
      (chatLoop cfg en fuel t round c s).count
        = c + (chatLoop cfg en fuel t round c s).dispatches.length := by
  intro fuel
  induction fuel with
  | zero => intro t round c s; simp [chatLoop]
  | succ fuel ih =>
    intro t round c s
    simp only [chatLoop]
    split
    · simp
    · split
      · simp
      · have hacc := processChildren_account
          (fun m c2 s2 =>
            processMentionRec cfg en cfg.maxMentionDepth m cfg.master 1 [cfg.master] c2 s2)
          (fun m2 c2 s2 =>
            processMentionRec_account cfg en cfg.maxMentionDepth m2 cfg.master 1
              [cfg.master] c2 s2)
          (extractMentions cfg.agents t cfg.master)
          (c + (extractMentions cfg.agents t cfg.master).length) s
        split
        · dsimp only; omega
        · split
          · dsimp only; omega
          · split
            · dsimp only; omega
            · rename_i x t2 s2 heq hne
              have hnext := ih t2 (round + 1)
                (processChildren
                  (fun m c2 s2 =>
                    processMentionRec cfg en cfg.maxMentionDepth m cfg.master 1
                      [cfg.master] c2 s2)
                  (extractMentions cfg.agents t cfg.master)
                  (c + (extractMentions cfg.agents t cfg.master).length) s).count s2
              dsimp only
              simp only [List.length_append]
              omega

/-- Depth bound for the whole mention loop: every dispatch is at depth
between 1 and `maxMentionDepth`. -/
theorem chatLoop_depth {σ : Type} (cfg : SwarmCfg) (en : Oracle σ) :
    ∀ (fuel : Nat) (t : String) (round c : Nat) (s : σ),
      ∀ d ∈ (chatLoop cfg en fuel t round c s).dispatches,
        1 ≤ d.depth ∧ d.depth ≤ cfg.maxMentionDepth := by
  intro fuel
  induction fuel with
  | zero => intro t round c s d hd; simp [chatLoop] at hd
  | succ fuel ih =>
    intro t round c s d hd
    simp only [chatLoop] at hd
    split at hd
    · simp at hd
    · rename_i hguard
      have hmax : 1 ≤ cfg.maxMentionDepth := by
        simp only [Bool.or_eq_true, decide_eq_true_eq, Nat.not_le, not_or] at hguard
        omega
      split at hd
      · simp at hd
      · have hchild := processChildren_disp
          (fun m c2 s2 =>
            processMentionRec cfg en cfg.maxMentionDepth m cfg.master 1 [cfg.master] c2 s2)
          (fun d2 => 1 ≤ d2.depth ∧ d2.depth ≤ cfg.maxMentionDepth)
          (fun m2 c2 s2 =>
            processMentionRec_depth cfg en cfg.maxMentionDepth m2 cfg.master 1 [cfg.master]
              c2 s2 hmax)
          (extractMentions cfg.agents t cfg.master)
          (c + (extractMentions cfg.agents t cfg.master).length) s
        split at hd
        · exact hchild d hd
        · split at hd
          · exact hchild d hd
          · split at hd
            · exact hchild d hd
            · simp only [List.mem_append] at hd
              rcases hd with hd | hd
              · exact hchild d hd
              · exact ih _ _ _ _ d hd

/-- Every dispatch of a whole turn is at depth between 1 and
`maxMentionDepth`. -/
theorem chat_depth {σ : Type} (cfg : SwarmCfg) (en : Oracle σ) (user : String) (s : σ) :
    ∀ d ∈ (chat cfg en user s).dispatches,
      1 ≤ d.depth ∧ d.depth ≤ cfg.maxMentionDepth := by
  intro d hd
  unfold chat at hd
  split at hd
  · simp at hd
  · split at hd
    · simp at hd
    · split at hd
      · simp at hd
      · exact chatLoop_depth cfg en cfg.maxMentionDepth _ 0 0 _ d hd

/-- The final counter of a turn equals the number of dispatches of the
turn. -/
theorem chat_account {σ : Type} (cfg : SwarmCfg) (en : Oracle σ) (user : String) (s : σ) :
    (chat cfg en user s).count = (chat cfg en user s).dispatches.length := by
  unfold chat
  split
  · simp
  · split
    · simp
    · split
      · simp
      · rename_i x result s2 heq hne
        simpa using chatLoop_account cfg en cfg.maxMentionDepth result 0 0 s2

/-- The counter of a turn stays within the global cap. -/
theorem chat_bound {σ : Type} (cfg : SwarmCfg) (en : Oracle σ) (user : String) (s : σ) :
    (chat cfg en user s).count ≤ MAX_TOTAL_MENTIONS := by
  unfold chat
  split
  · simp [MAX_TOTAL_MENTIONS]
  · split
    · simp [MAX_TOTAL_MENTIONS]
    · split
      · simp [MAX_TOTAL_MENTIONS]
      · exact chatLoop_bound cfg en cfg.maxMentionDepth _ 0 0 _ (by omega)

/-- A three-agent demo configuration with depth limit 2. -/
def demoCfg : SwarmCfg := ⟨["m", "b", "c"], "m", 2⟩

/-- A demo oracle: the master always replies by mentioning b, b mentions c,
c answers plainly; every agent is reachable. -/
def demoOracle : Oracle Unit where
  send := fun _ agent _ =>
    (if agent == "m" then some "@b hello"
     else if agent == "b" then some "@c hi"
     else if agent == "c" then some "ok"
     else none, ())
  ensure := fun _ _ => (true, ())
  ctx := fun _ _ _ => ""

/-- C1: for every turn driven by chat, no branch is ever dispatched at depth
above maxMentionDepth: first-level mentions go out at depth 1 only while the
round counter is below maxMentionDepth, and recursive children go out at
depth + 1 only under the guard depth < maxMentionDepth. On the demo swarm
with maxMentionDepth = 2 and a chain of always-mentioning agents, dispatches
occur at depths 1 and 2 and recursion stops exactly at depth 2. -/
theorem C1_no_dispatch_beyond_depth :
    (∀ (σ : Type) (en : Oracle σ) (cfg : SwarmCfg) (user : String) (s : σ),
      ∀ d ∈ (chat cfg en user s).dispatches,
        1 ≤ d.depth ∧ d.depth ≤ cfg.maxMentionDepth)
    ∧ (chat demoCfg demoOracle "go" ()).dispatches
        = [⟨"b", 1⟩, ⟨"c", 2⟩, ⟨"b", 1⟩, ⟨"c", 2⟩] := by
  refine ⟨?_, by decide⟩
  intro σ en cfg user s
  exact chat_depth cfg en user s

/-- C1 witness: the depth bound applied to a concrete dispatch of the demo
turn. -/
theorem C1_witness :
    1 ≤ (Dispatch.mk "c" 2).depth
    ∧ (Dispatch.mk "c" 2).depth ≤ demoCfg.maxMentionDepth :=
  C1_no_dispatch_beyond_depth.1 Unit demoOracle demoCfg "go" () ⟨"c", 2⟩ (by decide)

/-- C2: the shared global mention counter is monotonically non-decreasing
(across every branch and across the root loop), it counts exactly the
dispatched branches, and the total number of branch dispatches in a turn
never exceeds MAX_TOTAL_MENTIONS = 20; the checks are soft stops, no error
is raised in the model. -/
theorem C2_global_mention_cap :
    (∀ (σ : Type) (en : Oracle σ) (cfg : SwarmCfg) (user : String) (s : σ),
      (chat cfg en user s).count = (chat cfg en user s).dispatches.length
      ∧ (chat cfg en user s).dispatches.length ≤ MAX_TOTAL_MENTIONS)
    ∧ (∀ (σ : Type) (en : Oracle σ) (cfg : SwarmCfg) (fuel : Nat) (m : MentionMatch)
        (p : String) (depth : Nat) (v : List String) (c : Nat) (s : σ),
        c ≤ (processMentionRec cfg en fuel m p depth v c s).count)
    ∧ (∀ (σ : Type) (en : Oracle σ) (cfg : SwarmCfg) (fuel : Nat) (t : String)
        (round c : Nat) (s : σ),
        c ≤ (chatLoop cfg en fuel t round c s).count) := by
  refine ⟨?_, ?_, ?_⟩
  · intro σ en cfg user s
    refine ⟨chat_account cfg en user s, ?_⟩
    rw [← chat_account cfg en user s]
    exact chat_bound cfg en user s
  · intro σ en cfg fuel m p depth v c s
    exact processMentionRec_mono cfg en fuel m p depth v c s
  · intro σ en cfg fuel t round c s
    exact chatLoop_mono cfg en fuel t round c s

end OpenSwarm
